import Mathlib

/-!
Verification development for the `json-indexer` repository (src/index.ts).

The embedding works over `List Char`; one character of the decoded text is
identified with one byte of the file (the repository's own README and spec
assume this ASCII identification, and §9 of the spec records the byte-versus-
character caveat).  The scanner state, the chunk loop, the brace scan, the
buffer compaction and the map insertion are translated directly from the
`index()` method of `JsonIndexer` in src/index.ts.  JSON parsing and text
decoding are external collaborators of the component (spec §1); they are
modelled from the spec where marked.
-/

/-- The JSON value tree produced by parsing a complete string.
Numbers are restricted to integers, which covers every record the
development evaluates. -/
inductive Json where
  | null : Json
  | bool (b : Bool) : Json
  | num (n : Int) : Json
  | str (s : String) : Json
  | arr (elems : List Json) : Json
  | obj (fields : List (String × Json)) : Json

/-- JavaScript property read on a parsed object: the value stored under a
string key, with the last duplicate winning as in `JSON.parse`; `none` is
`undefined` (absent key, or a non-object receiver). -/
def objGet (j : Json) (k : String) : Option Json :=
  match j with
  | Json.obj fields => (fields.filter (fun p => p.1 = k)).getLast?.map Prod.snd
  | _ => none

/-- `record.id` in the source: `undefined` (`none`) unless the parsed value
is an object carrying the key. -/
def jsId (j : Json) : Option Json :=
  objGet j "id"

/-- JSON whitespace skipping. -/
def skipWs : List Char → List Char
  | c :: t => if c = ' ' ∨ c = '\n' ∨ c = '\t' ∨ c = '\r' then skipWs t else c :: t
  | [] => []

/-- One-character JSON string escapes (`\u` escapes are outside the subset
this development exercises). -/
def escChar (c : Char) : Option Char :=
  if c = '"' then some '"'
  else if c = '\\' then some '\\'
  else if c = '/' then some '/'
  else if c = 'n' then some '\n'
  else if c = 't' then some '\t'
  else if c = 'r' then some '\r'
  else none

/-- Body of a JSON string after the opening quote: returns the decoded
content and the remainder after the closing quote. -/
def parseStringBody : List Char → Option (List Char × List Char)
  | [] => none
  | '"' :: t => some ([], t)
  | '\\' :: c :: t =>
    match escChar c with
    | some m =>
      match parseStringBody t with
      | some (s, r) => some (m :: s, r)
      | none => none
    | none => none
  | c :: t =>
    match parseStringBody t with
    | some (s, r) => some (c :: s, r)
    | none => none

/-- Longest digit prefix of the input and the remainder. -/
def parseDigits : List Char → (List Char × List Char)
  | [] => ([], [])
  | c :: t =>
    if c.isDigit then
      let (d, r) := parseDigits t
      (c :: d, r)
    else ([], c :: t)

/-- Digit list to natural number, most significant first. -/
def digitsToNat (l : List Char) : Nat :=
  l.foldl (fun acc c => acc * 10 + (c.toNat - 48)) 0

mutual

/-- Modelled from the spec: JSON object parsing of a complete string is an
external collaborator (spec §1, §4.1 step 4); this is a recursive-descent
parser for the JSON subset the records of this development use (objects,
arrays, strings with one-character escapes, integer numbers, booleans,
null).  Returns the value and the unconsumed remainder, or `none` on a
syntax error.  The fuel argument only bounds the recursion depth and is
always supplied large enough. -/
def parseValue : Nat → List Char → Option (Json × List Char)
  | 0, _ => none
  | fuel + 1, s =>
    match skipWs s with
    | '{' :: t =>
      match skipWs t with
      | '}' :: r => some (Json.obj [], r)
      | u => parseMembers fuel u []
    | '[' :: t =>
      match skipWs t with
      | ']' :: r => some (Json.arr [], r)
      | u => parseElems fuel u []
    | '"' :: t =>
      match parseStringBody t with
      | some (content, r) => some (Json.str (String.mk content), r)
      | none => none
    | 't' :: 'r' :: 'u' :: 'e' :: r => some (Json.bool true, r)
    | 'f' :: 'a' :: 'l' :: 's' :: 'e' :: r => some (Json.bool false, r)
    | 'n' :: 'u' :: 'l' :: 'l' :: r => some (Json.null, r)
    | '-' :: t =>
      match parseDigits t with
      | ([], _) => none
      | (d, r) => some (Json.num (-(digitsToNat d : Int)), r)
    | t =>
      match parseDigits t with
      | ([], _) => none
      | (d, r) => some (Json.num (digitsToNat d : Int), r)

/-- Members of a JSON object after the opening brace (first member
pending). -/
def parseMembers : Nat → List Char → List (String × Json) → Option (Json × List Char)
  | 0, _, _ => none
  | fuel + 1, s, acc =>
    match skipWs s with
    | '"' :: t =>
      match parseStringBody t with
      | some (k, u) =>
        match skipWs u with
        | ':' :: v =>
          match parseValue fuel v with
          | some (val, w) =>
            match skipWs w with
            | ',' :: x => parseMembers fuel x (acc ++ [(String.mk k, val)])
            | '}' :: x => some (Json.obj (acc ++ [(String.mk k, val)]), x)
            | _ => none
          | none => none
        | _ => none
      | none => none
    | _ => none

/-- Elements of a JSON array after the opening bracket (first element
pending). -/
def parseElems : Nat → List Char → List Json → Option (Json × List Char)
  | 0, _, _ => none
  | fuel + 1, s, acc =>
    match parseValue fuel s with
    | some (val, w) =>
      match skipWs w with
      | ',' :: x => parseElems fuel x (acc ++ [val])
      | ']' :: x => some (Json.arr (acc ++ [val]), x)
      | _ => none
    | none => none

end

/-- Modelled from the spec: `JSON.parse` on a complete candidate string
(external collaborator, spec §1).  Succeeds only when the whole input, up
to trailing whitespace, is one JSON value. -/
def jsonParse (s : List Char) : Option Json :=
  match parseValue (2 * s.length + 2) s with
  | some (v, rest) => if skipWs rest = [] then some v else none
  | none => none

/-- A JavaScript `Map` key as used by `index.set(record.id, ...)`.
`Map` compares keys by SameValueZero: primitive values by value, objects
and arrays by reference.  `undef` is the `undefined` obtained when the
parsed record has no `id` property; `ref tag` stands for an object or
array value, where `tag` is unique per `JSON.parse` call, because every
parse allocates a fresh object. -/
inductive MapKey where
  | undef : MapKey
  | str (s : String) : MapKey
  | num (n : Int) : MapKey
  | bool (b : Bool) : MapKey
  | null : MapKey
  | ref (tag : Nat) : MapKey
deriving DecidableEq

/-- The `record.id` of a parsed candidate, as a `Map` key; `tag` is the
fresh reference identity used when the id value is an object or array. -/
def jsIdKey (tag : Nat) (j : Json) : MapKey :=
  match jsId j with
  | none => MapKey.undef
  | some (Json.str s) => MapKey.str s
  | some (Json.num n) => MapKey.num n
  | some (Json.bool b) => MapKey.bool b
  | some Json.null => MapKey.null
  | some (Json.arr _) => MapKey.ref tag
  | some (Json.obj _) => MapKey.ref tag

/-- One value of the returned map: the object literal built at the single
insertion site of `index()` (src/index.ts lines 150-155).  The base fields
`id`, `filePosition` and `length` are always present by construction;
`additional` holds the spread of `extractAdditionalProperties`.
`filePosition` is an `Int` because `contentPosition` can go negative in
the source (offset plus an `indexOf` result of `-1`). -/
structure Entry where
  id : MapKey
  filePosition : Int
  length : Nat
  additional : List (String × Json)

/-- `extractAdditionalProperties` from src/index.ts lines 68-76: copies
from the parsed record exactly the keys of `additionalIndexKeys` that are
present on it, in list order. -/
def extractAdditionalProperties (record : Json) (additionalIndexKeys : List String) :
    List (String × Json) :=
  additionalIndexKeys.filterMap (fun k => (objGet record k).map (fun v => (k, v)))

/-- JavaScript `String.prototype.indexOf` for a substring: the least
position at which `needle` starts in the remaining text, counting from
`i`. -/
def strIndexOfStrAux (needle : List Char) : List Char → Nat → Option Nat
  | [], i => if needle.isEmpty then some i else none
  | c :: t, i =>
    if needle.isPrefixOf (c :: t) then some i else strIndexOfStrAux needle t (i + 1)

/-- `hay.indexOf(needle)`, with `none` for JavaScript's `-1`. -/
def strIndexOfStr (hay needle : List Char) : Option Nat :=
  strIndexOfStrAux needle hay 0

/-- Least position `≥` the start of the list at which the character
occurs. -/
def strIndexOfCharAux (c : Char) : List Char → Nat → Option Nat
  | [], _ => none
  | x :: t, i => if x = c then some i else strIndexOfCharAux c t (i + 1)

/-- `hay.indexOf(c, start)`, with `none` for JavaScript's `-1`. -/
def strIndexOfCharFrom (hay : List Char) (c : Char) (start : Nat) : Option Nat :=
  (strIndexOfCharAux c (hay.drop start) 0).map (· + start)

/-- `hay.lastIndexOf(c)`, with `none` for JavaScript's `-1`. -/
def lastIndexOfCharAux (c : Char) : List Char → Nat → Option Nat → Option Nat
  | [], _, best => best
  | x :: t, i, best => lastIndexOfCharAux c t (i + 1) (if x = c then some i else best)

/-- `hay.lastIndexOf(c)`, with `none` for JavaScript's `-1`. -/
def lastIndexOfChar (hay : List Char) (c : Char) : Option Nat :=
  lastIndexOfCharAux c hay 0 none

namespace JsonIndexer

/-- The literal key marker `"${key}":` built at src/index.ts line 114. -/
def renderKey (key : String) : List Char :=
  '"' :: (key.data ++ ['"', ':'])

/-- Array-boundary detection, src/index.ts lines 127-132: if the buffer
contains the key marker, take the first `[` at or after the marker, set
`contentPosition := offset + arrayStart` and truncate the buffer with
`buffer.slice(arrayStart)`.  When no `[` is present yet, `indexOf`
returns `-1`, so the source computes `offset + (-1)` and
`buffer.slice(-1)` (the last character). -/
def detectArray (arrayKey : List Char) (offset : Nat) (buf : List Char) :
    Option (Int × List Char) :=
  match strIndexOfStr buf arrayKey with
  | none => none
  | some m =>
    match strIndexOfCharFrom buf '[' m with
    | some a => some ((offset : Int) + (a : Int), buf.drop a)
    | none => some ((offset : Int) - 1, buf.drop (buf.length - 1))

/-- The character loop of src/index.ts lines 138-161 over one window's
buffer.  `full` is the whole buffer (for `substring`), `rest` the suffix
still to scan, `i` the current position, `bracketCount` the brace depth
(an `Int`: the source lets it go negative), `startPos` the recorded start
of the current candidate, `evs` the `index.set` calls emitted so far in
this window and `tag0` the number of insertions made before this window
(only used to tag fresh object identities). -/
def braceLoop (keys : List String) (cp : Int) (full : List Char) (tag0 : Nat) :
    List Char → Nat → Int → Nat → List (MapKey × Entry) → List (MapKey × Entry)
  | [], _, _, _, evs => evs
  | ch :: rest, i, bracketCount, startPos, evs =>
    if ch = '{' then
      braceLoop keys cp full tag0 rest (i + 1) (bracketCount + 1)
        (if bracketCount = 0 then i else startPos) evs
    else if ch = '}' then
      let bc := bracketCount - 1
      if bc = 0 then
        let recordStr := (full.drop startPos).take (i + 1 - startPos)
        match jsonParse recordStr with
        | some record =>
          let k := jsIdKey (tag0 + evs.length) record
          let e : Entry :=
            { id := k
              filePosition := cp + (startPos : Int)
              length := recordStr.length
              additional := extractAdditionalProperties record keys }
          braceLoop keys cp full tag0 rest (i + 1) bc startPos (evs ++ [(k, e)])
        | none => braceLoop keys cp full tag0 rest (i + 1) bc startPos evs
      else braceLoop keys cp full tag0 rest (i + 1) bc startPos evs
    else braceLoop keys cp full tag0 rest (i + 1) bracketCount startPos evs

/-- All `index.set` calls made while scanning one window's buffer. -/
def processWindow (keys : List String) (cp : Int) (buf : List Char) (tag0 : Nat) :
    List (MapKey × Entry) :=
  braceLoop keys cp buf tag0 buf 0 0 0 []

/-- Buffer compaction, src/index.ts lines 162-168: truncate at the last
`{` of the buffer (advancing `contentPosition` by its index), or clear
the buffer when it has no `{` at all. -/
def compactBuffer (cp : Int) (buf : List Char) : Int × List Char :=
  match lastIndexOfChar buf '{' with
  | some l => (cp + (l : Int), buf.drop l)
  | none => (cp, [])

/-- The scan state of the `while` loop of `index()` (src/index.ts lines
115-119), plus the accumulated `index.set` calls and an iteration
counter. -/
structure LoopState where
  offset : Nat
  buffer : List Char
  inArray : Bool
  contentPosition : Int
  events : List (MapKey × Entry)
  iters : Nat

/-- One iteration of the `while` loop (src/index.ts lines 121-172):
read the chunk `file.slice(offset, offset + chunkSize)`, append it to the
buffer, run array-boundary detection unless already inside the array,
then (when inside) run the brace scan and buffer compaction, and advance
the cursor by the chunk size. -/
def scanIter (file arrayKey : List Char) (keys : List String) (c : Nat) (st : LoopState) :
    LoopState :=
  let buf0 := st.buffer ++ (file.drop st.offset).take c
  match (if st.inArray then some (st.contentPosition, buf0) else detectArray arrayKey st.offset buf0) with
  | some (cp1, buf1) =>
    let evs := processWindow keys cp1 buf1 st.events.length
    let cb := compactBuffer cp1 buf1
    { offset := st.offset + c
      buffer := cb.2
      inArray := true
      contentPosition := cb.1
      events := st.events ++ evs
      iters := st.iters + 1 }
  | none =>
    { offset := st.offset + c
      buffer := buf0
      inArray := false
      contentPosition := st.contentPosition
      events := st.events
      iters := st.iters + 1 }

/-- The `while (offset < this.file.size)` loop.  The fuel argument only
bounds the number of iterations; `file.length` iterations always suffice
for a positive chunk size, which is the only case the spec admits (the
source loop does not terminate at all for chunk size `0`). -/
def scanLoop (file arrayKey : List Char) (keys : List String) (c : Nat) :
    Nat → LoopState → LoopState
  | 0, st => st
  | fuel + 1, st =>
    if st.offset < file.length then
      scanLoop file arrayKey keys c fuel (scanIter file arrayKey keys c st)
    else st

/-- The initial scan state of `index()` (src/index.ts lines 115-119). -/
def initState : LoopState :=
  { offset := 0, buffer := [], inArray := false, contentPosition := 0, events := [], iters := 0 }

/-- The whole scan of `index()` for a given file, target key, additional
key list and chunk size. -/
def runScan (file : List Char) (key : String) (keys : List String) (c : Nat) : LoopState :=
  scanLoop file (renderKey key) keys c file.length initState

/-- The ordered sequence of `index.set` calls performed by `index()`. -/
def indexEvents (file : List Char) (key : String) (keys : List String) (c : Nat) :
    List (MapKey × Entry) :=
  (runScan file key keys c).events

/-- JavaScript `Map.set`: replace the value stored under an equal key in
place, otherwise append the binding at the end. -/
def jsMapSet : List (MapKey × Entry) → MapKey → Entry → List (MapKey × Entry)
  | [], k, v => [(k, v)]
  | p :: t, k, v => if p.1 = k then (k, v) :: t else p :: jsMapSet t k v

/-- JavaScript `Map.get`, with `none` for `undefined`: the value of the
first (and, for maps built by `Map.set`, only) binding whose key equals
the argument. -/
def jsMapGet : List (MapKey × Entry) → MapKey → Option Entry
  | [], _ => none
  | p :: t, k => if p.1 = k then some p.2 else jsMapGet t k

/-- The map returned by `index()`: the fold of `Map.set` over the
insertion sequence. -/
def indexMap (file : List Char) (key : String) (keys : List String) (c : Nat) :
    List (MapKey × Entry) :=
  (indexEvents file key keys c).foldl (fun m e => jsMapSet m e.1 e.2) []

/-- `Object.keys({} as T)` at src/index.ts line 52: the type parameter
`T` is erased at runtime, so this is `Object.keys` of the empty object
literal — the empty list, whatever shape `T` declares. -/
def objectKeysOfErasedShape : List String := []

/-- `getMissingKeys` from src/index.ts lines 51-57, with the runtime
value of `Object.keys({} as T)` made explicit. -/
def getMissingKeys (additionalIndexKeys : List String) : List String :=
  (objectKeysOfErasedShape.filter
      (fun k => ¬ (k = "id" ∨ k = "filePosition" ∨ k = "length"))).filter
    (fun k => ¬ additionalIndexKeys.contains k)

/-- Modelled from the spec: the field-requirement validation of §4.1 over
the declared record shape, which the running code cannot see because of
type erasure.  `declaredKeys` is the field list of the declared target
shape; every declared field other than the three mandatory ones must
appear in `additionalIndexKeys`. -/
def getMissingKeysSpec (declaredKeys additionalIndexKeys : List String) : List String :=
  (declaredKeys.filter
      (fun k => ¬ (k = "id" ∨ k = "filePosition" ∨ k = "length"))).filter
    (fun k => ¬ additionalIndexKeys.contains k)

/-- `index()` from src/index.ts lines 108-174: the missing-key check
followed by the chunked scan; `Except.error` models the thrown `Error`. -/
def index (file : List Char) (key : String) (additionalIndexKeys : List String) (c : Nat) :
    Except String (List (MapKey × Entry)) :=
  let missingKeys := getMissingKeys additionalIndexKeys
  if missingKeys.length > 0 then
    Except.error ("Missing keys in additionalIndexKeys: " ++ String.intercalate ", " missingKeys)
  else
    Except.ok (indexMap file key additionalIndexKeys c)

end JsonIndexer

/-- A file whose key marker sits in the second chunk when the chunk size
is 6: six filler characters, then the marker, the array and one record.
The record's opening brace is at absolute offset 11 and the first `[` at
absolute offset 10. -/
def markerSecondChunkFile : List Char :=
  "zzzzzz\"k\":[\x7b\"id\":\"1\"\x7d]".data

/-- A file whose first record contains a nested object, followed by a
second record.  With chunk size 27 the first window ends exactly at the
first record's closing brace. -/
def nestedTailFile : List Char :=
  "\"k\":[\x7b\"id\":\"1\",\"o\":\x7b\"x\":2\x7d\x7d,\x7b\"id\":\"9\"\x7d]".data

/-- The buffer held at the end of the first window when scanning
`nestedTailFile` with chunk size 27: the `[` and the complete first
record.  Every `\x7b` in it is matched. -/
def nestedTailBuffer : List Char :=
  "[\x7b\"id\":\"1\",\"o\":\x7b\"x\":2\x7d\x7d".data

/-- A file with a valid record, then a candidate whose extra closing
brace breaks brace balance (`"x":` with no value, followed by a stray
`\x7d`), then another valid record at absolute offset 33. -/
def strayBraceFile : List Char :=
  "\"k\":[\x7b\"id\":\"1\"\x7d,\x7b\"id\":\"2\",\"x\":\x7d\x7d,\x7b\"id\":\"3\"\x7d]".data

/-- A file containing the key marker but no `[` anywhere. -/
def noBracketFile : List Char :=
  "\"k\":zz\x7b\"id\":\"1\"\x7d".data

/-- The end-to-end example file of spec §8: one top-level object with a
`shoes` array of two records. -/
def shoesFile : List Char :=
  "\x7b\"shoes\":[\x7b\"id\":\"1\",\"name\":\"Nike\",\"size\":42\x7d,\x7b\"id\":\"2\",\"name\":\"Adidas\",\"size\":43\x7d]\x7d".data

/-- A short file in which the key marker never occurs. -/
def helloFile : List Char := "hello".data

/-- A nonempty list always has a last element. -/
theorem getLast?_cons_eq_some {α : Type} (a : α) (l : List α) :
    ∃ y, (a :: l).getLast? = some y := by
  induction l generalizing a with
  | nil => exact ⟨a, rfl⟩
  | cons b t ih => rw [List.getLast?_cons_cons]; exact ih b

namespace JsonIndexer

/-- Looking a key up after `Map.set` finds the new value exactly at that
key and is otherwise unchanged. -/
theorem jsMapGet_jsMapSet (m : List (MapKey × Entry)) (k : MapKey) (v : Entry) (k' : MapKey) :
    jsMapGet (jsMapSet m k v) k' = if k = k' then some v else jsMapGet m k' := by
  induction m with
  | nil =>
    by_cases h : k = k' <;> simp [jsMapSet, jsMapGet, h]
  | cons p t ih =>
    simp only [jsMapSet]
    by_cases hp : p.1 = k
    · rw [if_pos hp]
      by_cases hk : k = k'
      · simp [jsMapGet, hk]
      · have hpk : ¬ p.1 = k' := by rw [hp]; exact hk
        simp [jsMapGet, hk, hpk]
    · rw [if_neg hp]
      by_cases hpk : p.1 = k'
      · have hk : ¬ k = k' := fun h => hp (hpk.trans h.symm)
        simp [jsMapGet, hpk, hk]
      · simp [jsMapGet, hpk, ih]

/-- Folding `Map.set` over an insertion sequence: a lookup returns the
value of the last insertion with that key, or falls back to the initial
map. -/
theorem jsMapGet_foldl (evs : List (MapKey × Entry)) (m : List (MapKey × Entry)) (k : MapKey) :
    jsMapGet (evs.foldl (fun acc e => jsMapSet acc e.1 e.2) m) k =
      match (evs.filter (fun e => e.1 = k)).getLast? with
      | some e => some e.2
      | none => jsMapGet m k := by
  induction evs generalizing m with
  | nil => simp
  | cons e t ih =>
    rw [List.foldl_cons, ih]
    by_cases he : e.1 = k
    · rw [List.filter_cons_of_pos (by simpa using he)]
      cases ht : t.filter (fun e => e.1 = k) with
      | nil =>
        simp only [List.getLast?_nil, List.getLast?_singleton, jsMapGet_jsMapSet, he, if_pos]
      | cons x xs =>
        rw [List.getLast?_cons_cons]
        obtain ⟨y, hy⟩ := getLast?_cons_eq_some x xs
        simp only [hy]
    · rw [List.filter_cons_of_neg (by simpa using he)]
      cases ht : t.filter (fun e => e.1 = k) with
      | nil =>
        simp only [List.getLast?_nil, jsMapGet_jsMapSet, if_neg he]
      | cons x xs =>
        obtain ⟨y, hy⟩ := getLast?_cons_eq_some x xs
        simp only [hy]

/-- C7: for every file, target key, additional-field list and chunk size,
and every map key, the final map of `index()` stores under that key the
entry of the latest `index.set` call made with that key (last-write-wins);
in particular, when several discovered records share an identifier, the
latest-discovered record's `filePosition`, `length` and additional fields
win. -/
theorem index_last_write_wins (file : List Char) (key : String) (keys : List String) (c : Nat)
    (k : MapKey) :
    jsMapGet (indexMap file key keys c) k =
      (((indexEvents file key keys c).filter (fun e => e.1 = k)).getLast?).map Prod.snd := by
  rw [indexMap, jsMapGet_foldl]
  cases ((indexEvents file key keys c).filter (fun e => e.1 = k)).getLast? <;> simp [jsMapGet]

end JsonIndexer

namespace JsonIndexer

/-- Membership after `Map.set`: a binding of the new map is the inserted
binding or one of the old ones. -/
theorem jsMapSet_mem (m : List (MapKey × Entry)) (k : MapKey) (v : Entry)
    (q : MapKey × Entry) (hq : q ∈ jsMapSet m k v) : q = (k, v) ∨ q ∈ m := by
  induction m with
  | nil =>
    simp only [jsMapSet] at hq
    simp at hq
    exact Or.inl hq
  | cons p t ih =>
    simp only [jsMapSet] at hq
    by_cases hp : p.1 = k
    · rw [if_pos hp] at hq
      rcases List.mem_cons.1 hq with h1 | h1
      · exact Or.inl h1
      · exact Or.inr (List.mem_cons_of_mem p h1)
    · rw [if_neg hp] at hq
      rcases List.mem_cons.1 hq with h1 | h1
      · exact Or.inr (h1 ▸ List.mem_cons_self p t)
      · rcases ih h1 with h2 | h2
        · exact Or.inl h2
        · exact Or.inr (List.mem_cons_of_mem p h2)

/-- A property of bindings is preserved by folding `Map.set` over an
insertion sequence whose elements all satisfy it. -/
theorem foldl_jsMapSet_prop (P : MapKey × Entry → Prop) (evs : List (MapKey × Entry)) :
    ∀ (m : List (MapKey × Entry)), (∀ p ∈ m, P p) → (∀ p ∈ evs, P p) →
      ∀ p ∈ evs.foldl (fun acc e => jsMapSet acc e.1 e.2) m, P p := by
  induction evs with
  | nil => intro m hm _ p hp; exact hm p hp
  | cons e t ih =>
    intro m hm hev p hp
    rw [List.foldl_cons] at hp
    refine ih (jsMapSet m e.1 e.2) ?_ (fun q hq => hev q (List.mem_cons_of_mem e hq)) p hp
    intro q hq
    rcases jsMapSet_mem m e.1 e.2 q hq with h1 | h1
    · exact h1 ▸ hev e (List.mem_cons_self e t)
    · exact hm q h1

/-- A successful `Map.get` returns a binding stored under the looked-up
key. -/
theorem jsMapGet_eq_some_mem (m : List (MapKey × Entry)) (k : MapKey) (e : Entry)
    (h : jsMapGet m k = some e) : (k, e) ∈ m := by
  induction m with
  | nil => exact absurd h (by simp [jsMapGet])
  | cons p t ih =>
    simp only [jsMapGet] at h
    by_cases hp : p.1 = k
    · rw [if_pos hp] at h
      have he : p.2 = e := Option.some.inj h
      have hpk : p = (k, e) := by rw [← hp, ← he]
      exact hpk ▸ List.mem_cons_self p t
    · rw [if_neg hp] at h
      exact List.mem_cons_of_mem p (ih h)

/-- Every `index.set` call emitted by the brace scan uses `record.id`
both as map key and as the stored `id` field, whatever the scan state
is. -/
theorem braceLoop_id_eq_key (keys : List String) (cp : Int) (full : List Char) (tag0 : Nat) :
    ∀ (rest : List Char) (i : Nat) (bc : Int) (sp : Nat) (evs : List (MapKey × Entry)),
      (∀ p ∈ evs, (p.2).id = p.1) →
      ∀ p ∈ braceLoop keys cp full tag0 rest i bc sp evs, (p.2).id = p.1 := by
  intro rest
  induction rest with
  | nil =>
    intro i bc sp evs h p hp
    simp only [braceLoop] at hp
    exact h p hp
  | cons ch t ih =>
    intro i bc sp evs h p hp
    simp only [braceLoop] at hp
    by_cases h1 : ch = '{'
    · rw [if_pos h1] at hp
      exact ih _ _ _ _ h p hp
    · rw [if_neg h1] at hp
      by_cases h2 : ch = '}'
      · rw [if_pos h2] at hp
        by_cases h3 : bc - 1 = 0
        · rw [if_pos h3] at hp
          cases hj : jsonParse ((full.drop sp).take (i + 1 - sp)) with
          | none =>
            rw [hj] at hp
            exact ih _ _ _ _ h p hp
          | some record =>
            rw [hj] at hp
            refine ih _ _ _ _ ?_ p hp
            intro q hq
            rcases List.mem_append.1 hq with hq1 | hq1
            · exact h q hq1
            · have hq2 : q = (jsIdKey (tag0 + evs.length) record,
                  { id := jsIdKey (tag0 + evs.length) record
                    filePosition := cp + (sp : Int)
                    length := ((full.drop sp).take (i + 1 - sp)).length
                    additional := extractAdditionalProperties record keys }) := by
                simpa using hq1
              rw [hq2]
        · rw [if_neg h3] at hp
          exact ih _ _ _ _ h p hp
      · rw [if_neg h2] at hp
        exact ih _ _ _ _ h p hp

/-- The events accumulated by the chunk loop all store `record.id` as
both key and `id` field. -/
theorem scanLoop_events_id (file arrayKey : List Char) (keys : List String) (c : Nat) :
    ∀ (fuel : Nat) (st : LoopState), (∀ p ∈ st.events, (p.2).id = p.1) →
      ∀ p ∈ (scanLoop file arrayKey keys c fuel st).events, (p.2).id = p.1 := by
  intro fuel
  induction fuel with
  | zero => intro st h p hp; exact h p hp
  | succ n ih =>
    intro st h p hp
    simp only [scanLoop] at hp
    by_cases ho : st.offset < file.length
    · rw [if_pos ho] at hp
      refine ih (scanIter file arrayKey keys c st) ?_ p hp
      intro q hq
      simp only [scanIter] at hq
      rcases hd : (if st.inArray then
          some (st.contentPosition, st.buffer ++ (file.drop st.offset).take c)
        else detectArray arrayKey st.offset (st.buffer ++ (file.drop st.offset).take c)) with _ | ⟨cp1, buf1⟩
      · rw [hd] at hq
        exact h q hq
      · rw [hd] at hq
        rcases List.mem_append.1 hq with hq1 | hq1
        · exact h q hq1
        · exact braceLoop_id_eq_key keys cp1 buf1 st.events.length buf1 0 0 0 []
            (by intro r hr; exact absurd hr (List.not_mem_nil r)) q hq1
    · rw [if_neg ho] at hp
      exact h p hp

end JsonIndexer

namespace JsonIndexer

/-- C10: for every file, target key, additional-field list and chunk
size, every entry stored in the map returned by `index()` has its `id`
field equal to the map key under which it is stored; `filePosition`,
`length` and `id` are always present because the single insertion site
constructs the stored object with exactly these base fields. -/
theorem index_entry_id_matches_key (file : List Char) (key : String) (keys : List String)
    (c : Nat) (k : MapKey) (e : Entry)
    (h : jsMapGet (indexMap file key keys c) k = some e) : e.id = k := by
  have hev : ∀ p ∈ indexEvents file key keys c, (p.2).id = p.1 := by
    intro p hp
    rw [indexEvents, runScan] at hp
    exact scanLoop_events_id file (renderKey key) keys c file.length initState
      (by intro q hq; simp [initState] at hq) p hp
  have hmap : ∀ p ∈ indexMap file key keys c, (p.2).id = p.1 := by
    rw [indexMap]
    exact foldl_jsMapSet_prop _ _ [] (by intro q hq; simp at hq) hev
  simpa using hmap (k, e) (jsMapGet_eq_some_mem _ _ _ h)

/-- Witness for C10 at the end-to-end example of spec §8. -/
theorem index_entry_id_matches_key_witness :
    jsMapGet (indexMap shoesFile "shoes" ["name", "size"] 100) (MapKey.str "1") =
        some { id := MapKey.str "1", filePosition := 10, length := 34,
               additional := [("name", Json.str "Nike"), ("size", Json.num 42)] } ∧
      ({ id := MapKey.str "1", filePosition := 10, length := 34,
         additional := [("name", Json.str "Nike"), ("size", Json.num 42)] : Entry }).id =
        MapKey.str "1" :=
  ⟨rfl, index_entry_id_matches_key shoesFile "shoes" ["name", "size"] 100 (MapKey.str "1") _ rfl⟩

/-- One loop iteration always advances the read cursor by exactly the
chunk size. -/
theorem scanIter_offset (file arrayKey : List Char) (keys : List String) (c : Nat)
    (st : LoopState) : (scanIter file arrayKey keys c st).offset = st.offset + c := by
  simp only [scanIter]
  rcases (if st.inArray then some (st.contentPosition, st.buffer ++ (file.drop st.offset).take c)
      else detectArray arrayKey st.offset (st.buffer ++ (file.drop st.offset).take c)) with
    _ | ⟨cp1, buf1⟩
  · rfl
  · rfl

/-- One loop iteration bumps the iteration counter by one. -/
theorem scanIter_iters (file arrayKey : List Char) (keys : List String) (c : Nat)
    (st : LoopState) : (scanIter file arrayKey keys c st).iters = st.iters + 1 := by
  simp only [scanIter]
  rcases (if st.inArray then some (st.contentPosition, st.buffer ++ (file.drop st.offset).take c)
      else detectArray arrayKey st.offset (st.buffer ++ (file.drop st.offset).take c)) with
    _ | ⟨cp1, buf1⟩
  · rfl
  · rfl

/-- With enough fuel, the chunk loop runs exactly the ceiling of the
remaining length divided by the chunk size many iterations, and stops
with the cursor at or past the end of the file. -/
theorem scanLoop_iters (file arrayKey : List Char) (keys : List String) (c : Nat) (hc : 0 < c) :
    ∀ (fuel : Nat) (st : LoopState), (file.length - st.offset + c - 1) / c ≤ fuel →
      (scanLoop file arrayKey keys c fuel st).iters
          = st.iters + (file.length - st.offset + c - 1) / c ∧
        file.length ≤ (scanLoop file arrayKey keys c fuel st).offset := by
  intro fuel
  induction fuel with
  | zero =>
    intro st hle
    have h0 : (file.length - st.offset + c - 1) / c = 0 := Nat.le_zero.mp hle
    have h1 : file.length - st.offset = 0 := by
      by_contra hne
      have hn : 1 ≤ file.length - st.offset := Nat.one_le_iff_ne_zero.mpr hne
      have h2 : 1 ≤ (file.length - st.offset + c - 1) / c := by
        rw [Nat.le_div_iff_mul_le hc]
        omega
      omega
    have hz : scanLoop file arrayKey keys c 0 st = st := rfl
    rw [hz, h0]
    exact ⟨by omega, by omega⟩
  | succ n ih =>
    intro st hle
    by_cases ho : st.offset < file.length
    · have hn : 1 ≤ file.length - st.offset := by omega
      have hstep : (file.length - st.offset + c - 1) / c
          = (file.length - (st.offset + c) + c - 1) / c + 1 := by
        rcases Nat.le_total c (file.length - st.offset) with hcn | hnc
        · have e2 : file.length - st.offset + c - 1
              = (file.length - (st.offset + c) + c - 1) + c := by omega
          rw [e2, Nat.add_div_right _ hc]
        · have e3 : file.length - (st.offset + c) = 0 := by omega
          rw [e3]
          have e4 : (0 + c - 1) / c = 0 := Nat.div_eq_of_lt (by omega)
          rw [e4]
          show (file.length - st.offset + c - 1) / c = 0 + 1
          rw [Nat.zero_add]
          exact Nat.div_eq_of_lt_le (by omega) (by omega)
      have hoff : (scanIter file arrayKey keys c st).offset = st.offset + c :=
        scanIter_offset file arrayKey keys c st
      have hit : (scanIter file arrayKey keys c st).iters = st.iters + 1 :=
        scanIter_iters file arrayKey keys c st
      have hbound : (file.length - (scanIter file arrayKey keys c st).offset + c - 1) / c ≤ n := by
        rw [hoff]
        omega
      have hres := ih (scanIter file arrayKey keys c st) hbound
      have hunf : scanLoop file arrayKey keys c (n + 1) st
          = scanLoop file arrayKey keys c n (scanIter file arrayKey keys c st) := by
        simp only [scanLoop, if_pos ho]
      constructor
      · rw [hunf, hres.1, hit, hoff, hstep]
        omega
      · rw [hunf]
        exact hres.2
    · have h1 : file.length - st.offset = 0 := by omega
      have h0 : (file.length - st.offset + c - 1) / c = 0 := by
        rw [h1]
        exact Nat.div_eq_of_lt (by omega)
      have hunf : scanLoop file arrayKey keys c (n + 1) st = st := by
        simp only [scanLoop, if_neg ho]
      rw [hunf, h0]
      exact ⟨by omega, by omega⟩

/-- C9: for every file, target key, additional-field list and positive
chunk size, the scan loop of `index()` terminates with the read cursor
at or past the end of the file, after exactly the ceiling of
`file.size / chunkSize` iterations, whatever the file content is,
because every iteration advances the cursor by the fixed chunk size. -/
theorem index_scan_iteration_count (file : List Char) (key : String) (keys : List String)
    (c : Nat) (hc : 0 < c) :
    (runScan file key keys c).iters = (file.length + c - 1) / c ∧
      file.length ≤ (runScan file key keys c).offset := by
  have hb : (file.length - initState.offset + c - 1) / c ≤ file.length := by
    have h1 : file.length ≤ c * file.length := Nat.le_mul_of_pos_left _ hc
    have h2 : (file.length - 0 + c - 1) / c ≤ file.length := by
      rw [Nat.div_le_iff_le_mul_add_pred hc]
      omega
    simpa [initState] using h2
  have hres := scanLoop_iters file (renderKey key) keys c hc file.length initState hb
  rw [runScan]
  refine ⟨?_, hres.2⟩
  rw [hres.1]
  simp [initState]

/-- Witness for C9 at the spec's example file with chunk size 16: the
scan runs exactly six iterations over the 83-character file. -/
theorem index_scan_iteration_count_witness :
    0 < 16 ∧ (runScan shoesFile "shoes" [] 16).iters = (shoesFile.length + 16 - 1) / 16 :=
  ⟨by decide, (index_scan_iteration_count shoesFile "shoes" [] 16 (by decide)).1⟩

end JsonIndexer

/-- An occurrence of a needle in a prefix of a list is an occurrence in
the list itself. -/
theorem strIndexOfStrAux_take_isSome (needle : List Char) :
    ∀ (s : List Char) (m i : Nat), (strIndexOfStrAux needle (s.take m) i).isSome →
      (strIndexOfStrAux needle s i).isSome := by
  intro s
  induction s with
  | nil =>
    intro m i h
    simpa [List.take_nil] using h
  | cons ch t ih =>
    intro m i h
    cases m with
    | zero =>
      simp only [List.take_zero, strIndexOfStrAux] at h
      by_cases hne : needle.isEmpty
      · have hnil : needle = [] := by
          cases needle with
          | nil => rfl
          | cons a l => simp [List.isEmpty] at hne
        simp [strIndexOfStrAux, hnil, List.isPrefixOf]
      · rw [if_neg hne] at h
        simp at h
    | succ m' =>
      rw [List.take_succ_cons] at h
      by_cases hf : needle.isPrefixOf (ch :: t)
      · simp [strIndexOfStrAux, hf]
      · have hp : ¬ needle.isPrefixOf (ch :: t.take m') := by
          intro hpre
          exact hf (List.isPrefixOf_iff_prefix.2
            ((List.isPrefixOf_iff_prefix.1 hpre).trans
              (List.cons_prefix_cons.2 ⟨rfl, List.take_prefix m' t⟩)))
        rw [strIndexOfStrAux, if_neg hp] at h
        rw [strIndexOfStrAux, if_neg hf]
        exact ih m' (i + 1) h

/-- If a needle does not occur in a list, it does not occur in any prefix
of it. -/
theorem strIndexOfStr_take_none (hay needle : List Char) (m : Nat)
    (h : strIndexOfStr hay needle = none) : strIndexOfStr (hay.take m) needle = none := by
  rw [strIndexOfStr] at h ⊢
  cases hs : strIndexOfStrAux needle (hay.take m) 0 with
  | none => rfl
  | some j =>
    have hsome : (strIndexOfStrAux needle hay 0).isSome :=
      strIndexOfStrAux_take_isSome needle hay m 0 (by simp [hs])
    rw [h] at hsome
    simp at hsome

namespace JsonIndexer

/-- One loop iteration in which the marker is not found: the buffer keeps
accumulating, the scanner stays outside the array and no event is
emitted. -/
theorem scanIter_no_detect (file arrayKey : List Char) (keys : List String) (c : Nat)
    (st : LoopState) (hin : st.inArray = false)
    (hdet : detectArray arrayKey st.offset (st.buffer ++ (file.drop st.offset).take c) = none) :
    scanIter file arrayKey keys c st =
      { offset := st.offset + c
        buffer := st.buffer ++ (file.drop st.offset).take c
        inArray := false
        contentPosition := st.contentPosition
        events := st.events
        iters := st.iters + 1 } := by
  simp only [scanIter, hin, if_false, Bool.false_eq_true, hdet]

/-- While the key marker occurs nowhere in the file, the loop never
enters the array and never emits an event, and its buffer is always the
prefix of the file read so far. -/
theorem scanLoop_no_marker (file arrayKey : List Char) (keys : List String) (c : Nat)
    (hne : strIndexOfStr file arrayKey = none) :
    ∀ (fuel : Nat) (st : LoopState), st.inArray = false → st.buffer = file.take st.offset →
      (scanLoop file arrayKey keys c fuel st).events = st.events := by
  intro fuel
  induction fuel with
  | zero => intro st _ _; rfl
  | succ n ih =>
    intro st hin hbuf
    by_cases ho : st.offset < file.length
    · have hbuf0 : st.buffer ++ (file.drop st.offset).take c = file.take (st.offset + c) := by
        rw [hbuf, ← List.take_add]
      have hdet : detectArray arrayKey st.offset
          (st.buffer ++ (file.drop st.offset).take c) = none := by
        rw [detectArray, hbuf0, strIndexOfStr_take_none file arrayKey (st.offset + c) hne]
      have hstep := scanIter_no_detect file arrayKey keys c st hin hdet
      have hunf : scanLoop file arrayKey keys c (n + 1) st
          = scanLoop file arrayKey keys c n (scanIter file arrayKey keys c st) := by
        simp only [scanLoop, if_pos ho]
      rw [hunf, hstep]
      exact ih _ rfl (by simp [hbuf0])
    · have hunf : scanLoop file arrayKey keys c (n + 1) st = st := by
        simp only [scanLoop, if_neg ho]
      rw [hunf]

/-- C8 (amended): for every file in which the key marker never occurs,
and every target key, additional-field list and chunk size, `index()`
resolves to the empty map and throws no error. -/
theorem index_empty_when_marker_absent (file : List Char) (key : String) (keys : List String)
    (c : Nat) (h : strIndexOfStr file (renderKey key) = none) :
    index file key keys c = Except.ok [] := by
  have hev : indexEvents file key keys c = [] := by
    rw [indexEvents, runScan]
    exact scanLoop_no_marker file (renderKey key) keys c h file.length initState rfl rfl
  simp [index, getMissingKeys, objectKeysOfErasedShape, indexMap, hev]

/-- Witness for the amended C8 at a marker-free file. -/
theorem index_empty_when_marker_absent_witness :
    strIndexOfStr helloFile (renderKey "k") = none ∧
      JsonIndexer.index helloFile "k" [] 4 = Except.ok [] :=
  ⟨rfl, index_empty_when_marker_absent helloFile "k" [] 4 rfl⟩

/-- C8 counterexample: in `noBracketFile` the character `[` never occurs,
yet `index()` with chunk size 5 resolves to a map with one entry (the
negative `indexOf` result makes `slice(-1)` keep scanning, and the record
braces are then indexed although no array was ever opened). -/
theorem index_nonempty_although_bracket_absent :
    strIndexOfCharFrom noBracketFile '[' 0 = none ∧
      indexMap noBracketFile "k" [] 5 =
        [(MapKey.str "1", { id := MapKey.str "1", filePosition := 0, length := 10,
                            additional := [] })] :=
  ⟨rfl, rfl⟩

end JsonIndexer

namespace JsonIndexer

/-- C1 fails on the code: on `markerSecondChunkFile` with chunk size 6
the key marker is only found after one whole chunk was retained, the
baseline is set to `offset + arrayStart` instead of the absolute bracket
offset, and the stored entry points at byte range `[17, 27)`, which does
not re-parse; the record actually starts at offset 11, where the same
range does re-parse to the record. -/
theorem index_range_reparse_fails :
    indexMap markerSecondChunkFile "k" [] 6 =
        [(MapKey.str "1", { id := MapKey.str "1", filePosition := 17, length := 10,
                            additional := [] })] ∧
      jsonParse ((markerSecondChunkFile.drop 17).take 10) = none ∧
      jsonParse ((markerSecondChunkFile.drop 11).take 10) =
        some (Json.obj [("id", Json.str "1")]) :=
  ⟨rfl, rfl, rfl⟩

/-- C2 fails on the code: `Object.keys({} as T)` is the empty list at
runtime, so `getMissingKeys` returns the empty list for every supplied
additional-key list and `index()` never throws the configuration error;
the spec-modelled validation over the declared shape of the §8 example
(fields `name` and `size` declared, only `name` supplied) would instead
report `size`. -/
theorem index_never_throws_missing_key_error :
    (∀ ks : List String, getMissingKeys ks = []) ∧
      getMissingKeysSpec ["id", "filePosition", "length", "name", "size"] ["name"] = ["size"] ∧
      index shoesFile "shoes" ["name"] 100 =
        Except.ok (indexMap shoesFile "shoes" ["name"] 100) :=
  ⟨fun _ => rfl, rfl, rfl⟩

/-- C3 fails on the code: indexing `markerSecondChunkFile` with chunk
sizes 6 and 22 yields different maps, because the content-position
baseline set at marker detection depends on the read offset of the
window in which the marker is found. -/
theorem index_chunk_size_changes_map :
    indexMap markerSecondChunkFile "k" [] 6 ≠ indexMap markerSecondChunkFile "k" [] 22 := by
  intro h
  have h2 : (jsMapGet (indexMap markerSecondChunkFile "k" [] 6) (MapKey.str "1")).map
        Entry.filePosition
      = (jsMapGet (indexMap markerSecondChunkFile "k" [] 22) (MapKey.str "1")).map
        Entry.filePosition := by rw [h]
  have e1 : (jsMapGet (indexMap markerSecondChunkFile "k" [] 6) (MapKey.str "1")).map
      Entry.filePosition = some 17 := rfl
  have e2 : (jsMapGet (indexMap markerSecondChunkFile "k" [] 22) (MapKey.str "1")).map
      Entry.filePosition = some 11 := rfl
  rw [e1, e2] at h2
  exact absurd h2 (by decide)

/-- C4 fails on the code: when the marker of `markerSecondChunkFile` is
found at read offset 6 with one whole retained chunk in the buffer,
detection records baseline 16 (`offset + arrayStart`), while the first
`[` of the file sits at absolute offset 10. -/
theorem detect_baseline_not_absolute :
    detectArray (renderKey "k") 6 (markerSecondChunkFile.take 12) =
        some (16, "[\x7b".data) ∧
      strIndexOfCharFrom markerSecondChunkFile '[' 0 = some 10 ∧
      (16 : Int) ≠ (10 : Int) :=
  ⟨rfl, rfl, by decide⟩

/-- C5 fails on the code: compacting the first-window buffer of
`nestedTailFile` (a fully matched record, so the spec requires clearing
the buffer) keeps the suffix starting at the nested brace; as a
consequence, with chunk size 27 the re-scan of that suffix inserts a
bogus entry under the `undefined` key and the record with id `9` is
lost, although a single-window run (chunk size 39) indexes it. -/
theorem compaction_keeps_matched_brace :
    compactBuffer 4 nestedTailBuffer = (19, "\x7b\"x\":2\x7d\x7d".data) ∧
      jsMapGet (indexMap nestedTailFile "k" [] 27) (MapKey.str "9") = none ∧
      jsMapGet (indexMap nestedTailFile "k" [] 27) MapKey.undef =
        some { id := MapKey.undef, filePosition := 19, length := 7, additional := [] } ∧
      jsMapGet (indexMap nestedTailFile "k" [] 39) (MapKey.str "9") =
        some { id := MapKey.str "9", filePosition := 28, length := 10, additional := [] } :=
  ⟨rfl, rfl, rfl, rfl⟩

/-- C6 fails on the code: in `strayBraceFile` the malformed candidate is
skipped, but its stray closing brace drives the depth counter negative,
and the valid record with id `3` (present at offset 33 and parseable) is
never indexed even though the whole file is handled in one window. -/
theorem stray_brace_desync_drops_records :
    indexMap strayBraceFile "k" [] 100 =
        [(MapKey.str "1", { id := MapKey.str "1", filePosition := 5, length := 10,
                            additional := [] })] ∧
      strIndexOfStr strayBraceFile "\x7b\"id\":\"3\"\x7d".data = some 33 ∧
      jsonParse "\x7b\"id\":\"3\"\x7d".data = some (Json.obj [("id", Json.str "3")]) :=
  ⟨rfl, rfl, rfl⟩

end JsonIndexer
